import Mathlib

/-!
Shallow embedding of the Umaplay dataset scrapers
(src/datasets/scrape_supports.py and src/datasets/scrape_skills.py).

Python dictionaries holding event effects are modelled as association
lists in insertion order.  Python scores are modelled as rationals: the
script computes with IEEE doubles over small integer stat values, and
the specification states the score is a real number with no rounding.
Python code that can raise an exception (float() or len() applied to a
value of the wrong shape) is modelled with Option-valued functions.
-/

namespace Umaplay

/-- Value stored in an effect dictionary: an accumulated integer stat or
the ordered list of hint skill names.  Python never stores None in the
effect dictionary, so the type has no null constructor. -/
inductive EffVal where
  | int : Int → EffVal
  | strList : List String → EffVal
deriving DecidableEq

/-- Python dict with string keys, modelled as an association list in
insertion order with distinct keys. -/
abbrev Dict := List (String × EffVal)

/-- Python d.get(k): the binding of k, if any. -/
def dictGet : Dict → String → Option EffVal
  | [], _ => none
  | p :: d, k => if p.1 == k then some p.2 else dictGet d k

/-- Python d[k] = v on a dict with distinct keys: replace the binding in
place, keeping its position, or append a fresh binding at the end. -/
def dictSet : Dict → String → EffVal → Dict
  | [], k, v => [(k, v)]
  | p :: d, k, v => if p.1 == k then (k, v) :: d else p :: dictSet d k v

/-- Raw JSON scalar as the scraper sees it inside an effect entry. -/
inductive PyVal where
  | vint : Int → PyVal
  | vstr : String → PyVal
  | vnone : PyVal
deriving DecidableEq

/-- Python str() on such a scalar. -/
def pyStr : PyVal → String
  | .vint n => toString n
  | .vstr s => s
  | .vnone => "None"

/-- Python item.get(d-key, empty string) followed by str(). -/
def dStr : Option PyVal → String
  | none => ""
  | some p => pyStr p

/-- Drop the characters satisfying p from both ends of a character list. -/
def stripEnds (p : Char → Bool) (l : List Char) : List Char :=
  ((l.dropWhile p).reverse.dropWhile p).reverse

/-- Python s.strip applied with the plus character: remove every leading
and trailing plus sign. -/
def stripPlus (s : String) : String :=
  String.mk (stripEnds (fun c => c == '+') s.toList)

/-- Numeric value of a list of decimal digits. -/
def digitsToNat (l : List Char) : Nat :=
  l.foldl (fun acc c => acc * 10 + (c.toNat - 48)) 0

/-- Python int() on a string, modelled on the fragment the scraper can
meet: surrounding ASCII whitespace is ignored, then an optional single
sign followed by at least one ASCII decimal digit.  (CPython also accepts
underscores between digits and non-ASCII digits; no claim depends on
those inputs.) -/
def pyParseInt (s : String) : Option Int :=
  match stripEnds Char.isWhitespace s.toList with
  | [] => none
  | c :: rest =>
    if c == '-' then
      if rest ≠ [] ∧ rest.all Char.isDigit then some (-(digitsToNat rest : Int)) else none
    else if c == '+' then
      if rest ≠ [] ∧ rest.all Char.isDigit then some ((digitsToNat rest : Int)) else none
    else
      if (c :: rest).all Char.isDigit then some ((digitsToNat (c :: rest) : Int)) else none

/-- The try block of parse_effects_from_event_dict: int(str(value_raw).strip(plus)),
with a failed conversion reported as none. -/
def parseIntValue (v : PyVal) : Option Int :=
  pyParseInt (stripPlus (pyStr v))

/-- One entry of the raw 'r' effect list: type code 't', value 'v' and
skill identifier 'd'.  A missing 'v' key behaves like Python None. -/
structure EffItem where
  t : Option String
  v : PyVal
  d : Option PyVal
deriving DecidableEq

/-- The if/elif dispatch of parse_effects_from_event_dict as a table, in
source order: two-letter type code to stat key. -/
def codeStatTable : List (String × String) :=
  [("en", "energy"), ("sp", "speed"), ("st", "stamina"), ("po", "power"),
   ("gu", "guts"), ("in", "wit"), ("pt", "skill_pts"), ("bo", "bond")]

/-- eff[key] = eff.get(key, 0) + value. -/
def addStat (eff : Dict) (key : String) (value : Int) : Dict :=
  let cur : Int :=
    match dictGet eff key with
    | some (.int n) => n
    | _ => 0
  dictSet eff key (.int (cur + value))

/-- eff.setdefault(hints key, empty list).append(name). -/
def appendHint (eff : Dict) (name : String) : Dict :=
  let cur : List String :=
    match dictGet eff "hints" with
    | some (.strList l) => l
    | _ => []
  dictSet eff "hints" (.strList (cur ++ [name]))

/-- Skill-code branch: translate the raw identifier through the skill
map, falling back to a placeholder embedding the raw identifier. -/
def skillHintName (sm : List (String × String)) (d : Option PyVal) : String :=
  let skillId := dStr d
  (sm.lookup skillId).getD ("Skill ID: " ++ skillId)

/-- Body of the for-loop of parse_effects_from_event_dict for a single
effect entry. -/
def applyItem (sm : List (String × String)) (eff : Dict) (item : EffItem) : Dict :=
  match parseIntValue item.v with
  | none => eff
  | some value =>
    match item.t with
    | none => eff
    | some tc =>
      match codeStatTable.lookup tc with
      | some key => addStat eff key value
      | none => if tc == "sk" then appendHint eff (skillHintName sm item.d) else eff

/-- parse_effects_from_event_dict: fold the effect entries of the 'r'
list into a flat dict, then drop the bindings whose value is 0 or the
empty list (the Python comprehension also names None, which never occurs
as a stored value). -/
def parse_effects_from_event_dict (item_r : List EffItem) (sm : List (String × String)) : Dict :=
  (item_r.foldl (applyItem sm) []).filter
    (fun p => !(p.2 == EffVal.int 0 || p.2 == EffVal.strList []))

/-- Scoring weight for energy. -/
def W_ENERGY : ℚ := 100

/-- Global scoring weight applied to the per-stat weighted sum. -/
def W_STAT : ℚ := 10

/-- Scoring weight for skill points. -/
def W_SKILLPTS : ℚ := 2

/-- Scoring weight per hint. -/
def W_HINT : ℚ := 1

/-- Scoring weight for bond. -/
def W_BOND : ℚ := 3 / 10

/-- Scoring weight for mood. -/
def W_MOOD : ℚ := 2

/-- Per-stat weights, in source iteration order. -/
def STAT_WEIGHTS : List (String × ℚ) :=
  [("speed", 5), ("stamina", 4), ("power", 3), ("wit", 2), ("guts", 1)]

/-- Python float(eff.get(k, 0)) : 0 for a missing key, the stored integer
for a stat binding, and a TypeError (modelled as none) if the stored
value is a list. -/
def getFloat (eff : Dict) (k : String) : Option ℚ :=
  match dictGet eff k with
  | none => some 0
  | some (EffVal.int n) => some ((n : Int) : ℚ)
  | some (EffVal.strList _) => none

/-- Python len(eff.get(hints key, empty list)): 0 for a missing key, the
length for a list binding, and a TypeError (none) for an integer. -/
def getHintCount (eff : Dict) : Option Nat :=
  match dictGet eff "hints" with
  | none => some 0
  | some (EffVal.strList l) => some l.length
  | some (EffVal.int _) => none

/-- score_outcome: the fixed linear weighting of the effect map. -/
def score_outcome (eff : Dict) : Option ℚ := do
  let energy ← getFloat eff "energy"
  let stats_sum ← STAT_WEIGHTS.foldlM (fun acc p => do
      let v ← getFloat eff p.1
      pure (acc + p.2 * v)) (0 : ℚ)
  let spts ← getFloat eff "skill_pts"
  let hints ← getHintCount eff
  let bond ← getFloat eff "bond"
  let mood ← getFloat eff "mood"
  pure (W_ENERGY * energy + W_STAT * stats_sum + W_SKILLPTS * spts +
        W_HINT * (hints : ℚ) + W_BOND * bond + W_MOOD * mood)

/-- Python str.isdigit on the ASCII fragment: non-empty and all decimal
digits. -/
def pyIsDigitStr (s : String) : Bool :=
  !s.toList.isEmpty && s.toList.all Char.isDigit

/-- Python int(k) if str(k).isdigit() else 1, the numeric reading of an
option key used by choose_default_preference. -/
def numKey (k : String) : Int :=
  if pyIsDigitStr k then ((digitsToNat k.toList : Nat) : Int) else 1

/-- Python min over a non-empty list of scores (0 on the empty list,
which the caller never passes). -/
def listMin : List ℚ → ℚ
  | [] => 0
  | x :: xs => xs.foldl min x

/-- Scores of the outcomes of one option, in order; none as soon as one
score raises. -/
def scoresOf : List Dict → Option (List ℚ)
  | [] => some []
  | o :: rest => do
      let q ← score_outcome o
      let qs ← scoresOf rest
      pure (q :: qs)

/-- One iteration of the choose_default_preference loop.  The running
best score starts at Python float minus infinity, modelled as the bottom
of WithBot. -/
def chooseStep (st : Int × WithBot ℚ) (kv : String × List Dict) : Option (Int × WithBot ℚ) :=
  if kv.2.isEmpty then pure st
  else do
    let scores ← scoresOf kv.2
    let worst_case := listMin scores
    let current_key := numKey kv.1
    if ((worst_case : WithBot ℚ) > st.2 ∨
        ((worst_case : WithBot ℚ) = st.2 ∧ current_key < st.1)) then
      pure (current_key, (worst_case : WithBot ℚ))
    else
      pure st

/-- The loop of choose_default_preference over the options in insertion
order. -/
def chooseLoop : (Int × WithBot ℚ) → List (String × List Dict) → Option (Int × WithBot ℚ)
  | st, [] => pure st
  | st, kv :: rest => do
      let st' ← chooseStep st kv
      chooseLoop st' rest

/-- choose_default_preference: worst-case scoring with the initial state
best_key = 1, best_score = minus infinity. -/
def choose_default_preference (options : List (String × List Dict)) : Option Int :=
  (chooseLoop (1, (⊥ : WithBot ℚ)) options).map Prod.fst

/-- One raw event from the decoded language payload: its name 'n' and
its choice list 'c', each choice being the 'r' effect list of the
choice record. -/
structure RawEvent where
  n : Option String
  c : List (List EffItem)

/-- One emitted event of the output list. -/
structure Event where
  type : String
  chain_step : Int
  name : String
  options : List (String × List Dict)
  default_preference : Int

/-- The options dict built by enumerate(c, 1): keys are the successive
decimal strings of the 1-based index, each bound to a one-outcome list. -/
def mkOptionsFrom (sm : List (String × String)) : Nat → List (List EffItem) → List (String × List Dict)
  | _, [] => []
  | idx, choice :: rest =>
      (toString idx, [parse_effects_from_event_dict choice sm]) :: mkOptionsFrom sm (idx + 1) rest

/-- Body of the random-event loop of parse_events_from_json_data:
emit the event only when the options dict is non-empty. -/
def processRandom (sm : List (String × String)) (re : RawEvent) : Option (List Event) :=
  let options := mkOptionsFrom sm 1 re.c
  if options.isEmpty then pure []
  else do
    let dp ← choose_default_preference options
    pure [⟨"random", 1, re.n.getD "Unknown Random Event", options, dp⟩]

/-- The random-event loop over the whole 'random' list. -/
def processRandoms (sm : List (String × String)) : List RawEvent → Option (List Event)
  | [] => pure []
  | re :: rest => do
      let here ← processRandom sm re
      let tail ← processRandoms sm rest
      pure (here ++ tail)

/-- Body of the chain-event loop at a given chain_step value. -/
def processChain (sm : List (String × String)) (step : Int) (ce : RawEvent) : Option (List Event) :=
  let options := mkOptionsFrom sm 1 ce.c
  if options.isEmpty then pure []
  else do
    let dp ← choose_default_preference options
    pure [⟨"chain", step, ce.n.getD "Unknown Chain Event", options, dp⟩]

/-- The chain-event loop: the chain_step counter is incremented once per
chain event encountered, whether or not the event was emitted. -/
def processChains (sm : List (String × String)) : Int → List RawEvent → Option (List Event)
  | _, [] => pure []
  | step, ce :: rest => do
      let here ← processChain sm step ce
      let tail ← processChains sm (step + 1) rest
      pure (here ++ tail)

/-- parse_events_from_json_data after the embedded JSON string has been
decoded: the random events followed by the chain events, with the chain
step counter starting at 1. -/
def parse_events_from_json_data (sm : List (String × String))
    (randomEvents arrowEvents : List RawEvent) : Option (List Event) := do
  let rs ← processRandoms sm randomEvents
  let cs ← processChains sm 1 arrowEvents
  pure (rs ++ cs)

/-- Raw skill record of scrape_skills.py, restricted to the four fields
the filter of main() examines. -/
structure RawSkill where
  id : Option Int
  name_en : Option String
  desc_en : Option String
  iconid : Option Int
deriving DecidableEq

/-- Python falsiness of an optional string field: missing or empty. -/
def pyFalsyStr : Option String → Bool
  | none => true
  | some s => s == ""

/-- The filter of main() in scrape_skills.py: a record is skipped when
skill_id is None, or name_en is falsy, or desc_en is falsy, or icon_id
is None. -/
def skillKeep (s : RawSkill) : Bool :=
  !(s.id.isNone || pyFalsyStr s.name_en || pyFalsyStr s.desc_en || s.iconid.isNone)

/-- The records of the raw skill list that survive the filter of main()
(the enrichment of the kept records is irrelevant to the claims, so the
output is modelled as the kept records themselves). -/
def filtered_skills (raw_skills_data : List RawSkill) : List RawSkill :=
  raw_skills_data.filter skillKeep

/-- Value view of a binding used in proofs: the stored integer at a key,
if the key is bound to an integer. -/
def slotInt (d : Dict) (k : String) : Option Int :=
  match dictGet d k with
  | some (.int n) => some n
  | _ => none

/-- Rational reading of a stat binding with the Python default 0. -/
def slotQ (d : Dict) (k : String) : ℚ :=
  (((slotInt d k).getD 0 : Int) : ℚ)

/-- Length of the hints list with the Python default of an empty list. -/
def hintLen (d : Dict) : Nat :=
  match dictGet d "hints" with
  | some (.strList l) => l.length
  | _ => 0

/-- Well-shapedness of one binding: the hints key holds a list, every
other key holds an integer. -/
def WTpairB (p : String × EffVal) : Bool :=
  if p.1 == "hints" then
    (match p.2 with
     | .strList _ => true
     | _ => false)
  else
    (match p.2 with
     | .int _ => true
     | _ => false)

/-- Well-shaped effect dict: every binding is well shaped.  Every dict
produced by parse_effects_from_event_dict is well shaped, and on a well
shaped dict score_outcome cannot raise. -/
def WTDict (d : Dict) : Prop :=
  ∀ p ∈ d, WTpairB p = true

instance (d : Dict) : Decidable (WTDict d) :=
  inferInstanceAs (Decidable (∀ p ∈ d, WTpairB p = true))

/-- The fixed key set of the effect map. -/
def keyList : List String :=
  ["energy", "speed", "stamina", "power", "guts", "wit", "skill_pts", "bond", "hints"]

/-- Invariant of the accumulation dict of parse_effects_from_event_dict:
distinct keys, keys from the fixed key set, well-shaped values. -/
def GoodDict (d : Dict) : Prop :=
  (d.map Prod.fst).Nodup ∧ ∀ p ∈ d, p.1 ∈ keyList ∧ WTpairB p = true

/-- Sum of the parseable values of the entries carrying a given type
code, in order (spec side of claim C3). -/
def codeSum (code : String) : List EffItem → Int
  | [] => 0
  | it :: rest =>
      (if it.t = some code then (parseIntValue it.v).getD 0 else 0) + codeSum code rest

/-- Whether some entry with the given type code has a parseable value. -/
def codeTouched (code : String) : List EffItem → Bool
  | [] => false
  | it :: rest =>
      ((it.t == some code) && (parseIntValue it.v).isSome) || codeTouched code rest

/-- Score with the exception state erased; equal to the real score
whenever the score is defined. -/
def scD (o : Dict) : ℚ :=
  (score_outcome o).getD 0

/-- Worst-case score of an option: the minimum outcome score (spec side
of the default-preference claims). -/
def worstCase (outs : List Dict) : ℚ :=
  listMin (outs.map scD)

/-- Candidate pair a viable option contributes to the selection loop. -/
def entryOf (kv : String × List Dict) : Int × WithBot ℚ :=
  (numKey kv.1, ((worstCase kv.2 : ℚ) : WithBot ℚ))

/-- Pure form of one iteration of the selection loop, used once every
score is known to be defined. -/
def stepP (st : Int × WithBot ℚ) (kv : String × List Dict) : Int × WithBot ℚ :=
  if kv.2.isEmpty then st
  else if ((entryOf kv).2 > st.2 ∨ ((entryOf kv).2 = st.2 ∧ (entryOf kv).1 < st.1)) then
    entryOf kv
  else st

/-- Default preference of an options dict with the exception state
erased; equal to the real value whenever selection cannot raise. -/
def dpOf (options : List (String × List Dict)) : Int :=
  (choose_default_preference options).getD 1

/-- The event record emitted for a viable random event. -/
def mkRandomEvent (sm : List (String × String)) (re : RawEvent) : Event :=
  ⟨"random", 1, re.n.getD "Unknown Random Event", mkOptionsFrom sm 1 re.c,
    dpOf (mkOptionsFrom sm 1 re.c)⟩

/-- The event record emitted for a viable chain event at a given step. -/
def mkChainEvent (sm : List (String × String)) (step : Int) (ce : RawEvent) : Event :=
  ⟨"chain", step, ce.n.getD "Unknown Chain Event", mkOptionsFrom sm 1 ce.c,
    dpOf (mkOptionsFrom sm 1 ce.c)⟩

/-- The chain events emitted from the arrows list starting at a given
step value. -/
def chainList (sm : List (String × String)) : Int → List RawEvent → List Event
  | _, [] => []
  | step, ce :: rest =>
      (if ce.c.isEmpty then [] else [mkChainEvent sm step ce]) ++ chainList sm (step + 1) rest

/-- Zero-based positions of the arrows entries with at least one choice. -/
def viablePositions : List RawEvent → List Nat
  | [] => []
  | ce :: rest =>
      (if ce.c.isEmpty then [] else [0]) ++ (viablePositions rest).map (fun i => i + 1)

theorem dictGet_dictSet_self (d : Dict) (k : String) (v : EffVal) :
    dictGet (dictSet d k v) k = some v := by
  induction d with
  | nil => simp [dictSet, dictGet]
  | cons p d ih =>
    by_cases h : p.1 == k
    · simp [dictSet, h, dictGet]
    · simp [dictSet, h, dictGet, ih]

theorem dictGet_dictSet_ne (d : Dict) (k k' : String) (v : EffVal) (h : k' ≠ k) :
    dictGet (dictSet d k v) k' = dictGet d k' := by
  have hkk : ¬(k = k') := fun e => h e.symm
  induction d with
  | nil => simp [dictSet, dictGet, hkk]
  | cons p d ih =>
    by_cases hpk : p.1 == k
    · have hp1 : p.1 = k := by simpa using hpk
      simp [dictSet, hpk, dictGet, hp1, hkk]
    · simp [dictSet, hpk, dictGet, ih]

theorem mem_dictSet (d : Dict) (k : String) (v : EffVal) (p : String × EffVal)
    (hp : p ∈ dictSet d k v) : p = (k, v) ∨ p ∈ d := by
  induction d with
  | nil => simpa [dictSet] using hp
  | cons q d ih =>
    by_cases hqk : q.1 == k
    · simp only [dictSet, hqk, if_pos] at hp
      rcases List.mem_cons.mp hp with h | h
      · exact Or.inl h
      · exact Or.inr (List.mem_cons_of_mem _ h)
    · simp only [dictSet, hqk] at hp
      rcases List.mem_cons.mp hp with h | h
      · exact Or.inr (h ▸ List.mem_cons_self _ _)
      · rcases ih h with h' | h'
        · exact Or.inl h'
        · exact Or.inr (List.mem_cons_of_mem _ h')

theorem mem_keys_dictSet (d : Dict) (k : String) (v : EffVal) (a : String)
    (ha : a ∈ (dictSet d k v).map Prod.fst) : a = k ∨ a ∈ d.map Prod.fst := by
  rcases List.mem_map.mp ha with ⟨p, hp, rfl⟩
  rcases mem_dictSet d k v p hp with h | h
  · exact Or.inl (by simp [h])
  · exact Or.inr (List.mem_map.mpr ⟨p, h, rfl⟩)

theorem nodupKeys_dictSet (d : Dict) (k : String) (v : EffVal)
    (h : (d.map Prod.fst).Nodup) : ((dictSet d k v).map Prod.fst).Nodup := by
  induction d with
  | nil => simp [dictSet]
  | cons p d ih =>
    by_cases hpk : p.1 == k
    · have hp1 : p.1 = k := by simpa using hpk
      simpa [dictSet, hpk, hp1] using h
    · have hp1 : p.1 ≠ k := by simpa using hpk
      simp only [List.map_cons, List.nodup_cons] at h
      have htail := ih h.2
      simp only [dictSet, hpk, if_neg, Bool.false_eq_true, not_false_eq_true,
        List.map_cons, List.nodup_cons]
      refine ⟨fun hmem => ?_, htail⟩
      rcases mem_keys_dictSet d k v p.1 hmem with h' | h'
      · exact hp1 h'
      · exact h.1 h'

theorem dictGet_eq_none_iff (d : Dict) (k : String) :
    dictGet d k = none ↔ ∀ p ∈ d, p.1 ≠ k := by
  induction d with
  | nil => simp [dictGet]
  | cons p d ih =>
    by_cases hpk : p.1 == k
    · have hp1 : p.1 = k := by simpa using hpk
      simp [dictGet, hpk, hp1]
    · have hp1 : p.1 ≠ k := by simpa using hpk
      simp [dictGet, hpk, ih, hp1]

theorem dictGet_mem (d : Dict) (k : String) (v : EffVal) (h : dictGet d k = some v) :
    (k, v) ∈ d := by
  induction d with
  | nil => simp [dictGet] at h
  | cons p d ih =>
    obtain ⟨a, b⟩ := p
    by_cases hpk : a = k
    · subst hpk
      have hv : b = v := by simpa [dictGet] using h
      subst hv
      exact List.mem_cons_self _ _
    · have h' : dictGet d k = some v := by simpa [dictGet, hpk] using h
      exact List.mem_cons_of_mem _ (ih h')

theorem dictGet_filter (q : String × EffVal → Bool) (d : Dict) (k : String)
    (h : (d.map Prod.fst).Nodup) :
    dictGet (d.filter q) k = (dictGet d k).bind (fun v => if q (k, v) then some v else none) := by
  induction d with
  | nil => simp [dictGet]
  | cons p d ih =>
    obtain ⟨a, b⟩ := p
    simp only [List.map_cons, List.nodup_cons] at h
    by_cases hak : a = k
    · subst hak
      have hfil : dictGet (List.filter q d) a = none := by
        rw [dictGet_eq_none_iff]
        intro r hr hra
        refine h.1 ?_
        rw [← hra]
        exact List.mem_map.mpr ⟨r, List.mem_of_mem_filter hr, rfl⟩
      by_cases hq : q (a, b)
      · simp [List.filter_cons, hq, dictGet]
      · simp [List.filter_cons, hq, dictGet, hfil]
    · by_cases hq : q (a, b)
      · simp [List.filter_cons, hq, dictGet, hak, ih h.2]
      · simp [List.filter_cons, hq, dictGet, hak, ih h.2]

theorem lookup_mem_pair {β : Type} (l : List (String × β)) (a : String) (b : β)
    (h : l.lookup a = some b) : (a, b) ∈ l := by
  induction l with
  | nil => simp [List.lookup] at h
  | cons p l ih =>
    obtain ⟨x, y⟩ := p
    by_cases hax : a = x
    · subst hax
      have hb : y = b := by simpa [List.lookup] using h
      subst hb
      exact List.mem_cons_self _ _
    · have hbeq : (a == x) = false := by simpa using hax
      rw [List.lookup, hbeq] at h
      exact List.mem_cons_of_mem _ (ih h)

theorem codeStatTable_lookup_of_mem (c k : String) (h : (c, k) ∈ codeStatTable) :
    codeStatTable.lookup c = some k := by
  have hall : ∀ p ∈ codeStatTable, codeStatTable.lookup p.1 = some p.2 := by decide
  exact hall (c, k) h

theorem codeStatTable_val_ne_hints : ∀ p ∈ codeStatTable, p.2 ≠ "hints" := by decide

theorem codeStatTable_val_mem_keyList : ∀ p ∈ codeStatTable, p.2 ∈ keyList := by decide

theorem codeStatTable_val_inj :
    ∀ p ∈ codeStatTable, ∀ q ∈ codeStatTable, p.2 = q.2 → p.1 = q.1 := by decide

theorem goodDict_addStat (eff : Dict) (key : String) (value : Int)
    (hkey : key ∈ keyList) (hkh : key ≠ "hints") (h : GoodDict eff) :
    GoodDict (addStat eff key value) := by
  refine ⟨nodupKeys_dictSet _ _ _ h.1, fun p hp => ?_⟩
  rcases mem_dictSet _ _ _ _ hp with hpe | hpe
  · subst hpe
    refine ⟨hkey, ?_⟩
    simp [WTpairB, hkh]
  · exact h.2 p hpe

theorem goodDict_appendHint (eff : Dict) (name : String) (h : GoodDict eff) :
    GoodDict (appendHint eff name) := by
  refine ⟨nodupKeys_dictSet _ _ _ h.1, fun p hp => ?_⟩
  rcases mem_dictSet _ _ _ _ hp with hpe | hpe
  · subst hpe
    refine ⟨by simp [keyList], ?_⟩
    simp [WTpairB]
  · exact h.2 p hpe

theorem goodDict_applyItem (sm : List (String × String)) (eff : Dict) (it : EffItem)
    (h : GoodDict eff) : GoodDict (applyItem sm eff it) := by
  unfold applyItem
  split
  · exact h
  · split
    · exact h
    · split
      · rename_i heq
        have hmem := lookup_mem_pair _ _ _ heq
        exact goodDict_addStat eff _ _
          (codeStatTable_val_mem_keyList _ hmem)
          (codeStatTable_val_ne_hints _ hmem) h
      · split
        · exact goodDict_appendHint eff _ h
        · exact h

theorem goodDict_foldl (sm : List (String × String)) (items : List EffItem) (eff : Dict)
    (h : GoodDict eff) : GoodDict (items.foldl (applyItem sm) eff) := by
  induction items generalizing eff with
  | nil => exact h
  | cons it items ih => exact ih _ (goodDict_applyItem sm eff it h)

theorem goodDict_parse_effects (items : List EffItem) (sm : List (String × String)) :
    GoodDict (parse_effects_from_event_dict items sm) := by
  have hbase : GoodDict (items.foldl (applyItem sm) []) :=
    goodDict_foldl sm items [] ⟨List.nodup_nil, by simp⟩
  unfold parse_effects_from_event_dict
  constructor
  · exact List.Nodup.sublist (List.Sublist.map Prod.fst (List.filter_sublist _)) hbase.1
  · intro p hp
    exact hbase.2 p (List.mem_of_mem_filter hp)

theorem wtDict_parse_effects (items : List EffItem) (sm : List (String × String)) :
    WTDict (parse_effects_from_event_dict items sm) :=
  fun p hp => ((goodDict_parse_effects items sm).2 p hp).2

/-- C4: every binding of the map returned by parse_effects_from_event_dict
has a key from the fixed set energy, speed, stamina, power, guts, wit,
skill_pts, bond, hints, and a value that is neither 0 nor the empty list
(a stored Python None cannot occur: stored values are integers or string
lists by construction of the value type). -/
theorem c4_parse_effects_invariant (items : List EffItem) (sm : List (String × String))
    (p : String × EffVal) (hp : p ∈ parse_effects_from_event_dict items sm) :
    p.1 ∈ keyList ∧ p.2 ≠ EffVal.int 0 ∧ p.2 ≠ EffVal.strList [] := by
  have hkey := (goodDict_parse_effects items sm).2 p hp
  unfold parse_effects_from_event_dict at hp
  have hfil := List.of_mem_filter hp
  simp only [Bool.not_eq_true', Bool.or_eq_false_iff, beq_eq_false_iff_ne, ne_eq] at hfil
  exact ⟨hkey.1, hfil.1, hfil.2⟩

theorem c4_witness :
    ("energy", EffVal.int 5) ∈
        parse_effects_from_event_dict ([⟨some "en", PyVal.vint 5, none⟩] : List EffItem)
          ([] : List (String × String)) ∧
      ("energy", EffVal.int 5).1 ∈ keyList ∧
      ("energy", EffVal.int 5).2 ≠ EffVal.int 0 ∧
      ("energy", EffVal.int 5).2 ≠ EffVal.strList [] :=
  ⟨by decide,
    c4_parse_effects_invariant ([⟨some "en", PyVal.vint 5, none⟩] : List EffItem)
      ([] : List (String × String)) ("energy", EffVal.int 5) (by decide)⟩

/-- C8: no extraction path populates the mood key, so the mood read of
score_outcome yields 0 on every map produced by
parse_effects_from_event_dict. -/
theorem c8_no_mood (items : List EffItem) (sm : List (String × String)) :
    dictGet (parse_effects_from_event_dict items sm) "mood" = none ∧
    getFloat (parse_effects_from_event_dict items sm) "mood" = some 0 := by
  have hnone : dictGet (parse_effects_from_event_dict items sm) "mood" = none := by
    cases hd : dictGet (parse_effects_from_event_dict items sm) "mood" with
    | none => rfl
    | some v =>
      have hmem := dictGet_mem _ _ _ hd
      have hin : ("mood" : String) ∈ keyList :=
        ((goodDict_parse_effects items sm).2 _ hmem).1
      exact absurd hin (by decide)
  exact ⟨hnone, by simp [getFloat, hnone]⟩

theorem slotInt_addStat_self (d : Dict) (k : String) (v : Int) :
    slotInt (addStat d k v) k = some ((slotInt d k).getD 0 + v) := by
  unfold addStat
  cases hd : dictGet d k with
  | none => simp [slotInt, dictGet_dictSet_self, hd]
  | some w => cases w <;> simp [slotInt, dictGet_dictSet_self, hd]

theorem slotInt_addStat_ne (d : Dict) (k k' : String) (v : Int) (h : k' ≠ k) :
    slotInt (addStat d k v) k' = slotInt d k' := by
  unfold addStat slotInt
  rw [dictGet_dictSet_ne _ _ _ _ h]

theorem slotInt_appendHint (d : Dict) (name : String) (k : String) (h : k ≠ "hints") :
    slotInt (appendHint d name) k = slotInt d k := by
  unfold appendHint slotInt
  rw [dictGet_dictSet_ne _ _ _ _ h]

theorem slotInt_applyItem (sm : List (String × String)) (code key : String)
    (hck : codeStatTable.lookup code = some key) (it : EffItem) (eff : Dict) :
    slotInt (applyItem sm eff it) key =
      if it.t = some code ∧ (parseIntValue it.v).isSome
      then some ((slotInt eff key).getD 0 + (parseIntValue it.v).getD 0)
      else slotInt eff key := by
  cases hv : parseIntValue it.v with
  | none => simp [applyItem, hv]
  | some value =>
    cases ht : it.t with
    | none => simp [applyItem, hv, ht]
    | some tc =>
      by_cases htc : tc = code
      · subst htc
        simp [applyItem, hv, ht, hck, slotInt_addStat_self]
      · cases hl : codeStatTable.lookup tc with
        | some key' =>
          have hkk : key ≠ key' := by
            intro he
            have h1 := lookup_mem_pair _ _ _ hl
            have h2 := lookup_mem_pair _ _ _ hck
            exact htc (codeStatTable_val_inj _ h1 _ h2 (by rw [← he]))
          simp [applyItem, hv, ht, hl, slotInt_addStat_ne _ _ _ _ hkk, htc]
        | none =>
          have hkh : key ≠ "hints" :=
            codeStatTable_val_ne_hints _ (lookup_mem_pair _ _ _ hck)
          by_cases hsk : tc == "sk"
          · simp [applyItem, hv, ht, hl, hsk, slotInt_appendHint _ _ _ hkh, htc]
          · simp [applyItem, hv, ht, hl, hsk, htc]

theorem slotInt_foldl_applyItem (sm : List (String × String)) (code key : String)
    (hck : codeStatTable.lookup code = some key) :
    ∀ (items : List EffItem) (eff : Dict),
      slotInt (items.foldl (applyItem sm) eff) key =
        if (codeTouched code items || (slotInt eff key).isSome) = true
        then some ((slotInt eff key).getD 0 + codeSum code items)
        else none := by
  intro items
  induction items with
  | nil =>
    intro eff
    simp only [List.foldl_nil, codeTouched, codeSum, Bool.false_or]
    cases hs : slotInt eff key with
    | none => simp
    | some n => simp
  | cons it items ih =>
    intro eff
    rw [List.foldl_cons, ih (applyItem sm eff it), slotInt_applyItem sm code key hck it eff]
    by_cases ht : it.t = some code
    · cases hv : parseIntValue it.v with
      | some value => simp [codeTouched, codeSum, ht, hv, add_assoc]
      | none => simp [codeTouched, codeSum, ht, hv]
    · simp [codeTouched, codeSum, ht]

theorem codeSum_eq_zero_of_not_touched (code : String) (items : List EffItem)
    (h : codeTouched code items = false) : codeSum code items = 0 := by
  induction items with
  | nil => rfl
  | cons it items ih =>
    simp only [codeTouched, Bool.or_eq_false_iff] at h
    by_cases ht : it.t = some code
    · cases hv : parseIntValue it.v with
      | some value =>
        exfalso
        have := h.1
        simp [ht, hv] at this
      | none => simp [codeSum, ht, hv, ih h.2]
    · simp [codeSum, ht, ih h.2]

/-- C3: the binding of a stat key in the output of
parse_effects_from_event_dict is the arithmetic sum of the parseable
values of the entries carrying the corresponding type code (absent when
that sum is zero); entries with an unparseable value contribute nothing
and disturb nothing. -/
theorem c3_parse_effects_accumulates (code key : String) (hck : (code, key) ∈ codeStatTable)
    (items : List EffItem) (sm : List (String × String)) :
    dictGet (parse_effects_from_event_dict items sm) key =
      if codeSum code items = 0 then none else some (EffVal.int (codeSum code items)) := by
  have hlk := codeStatTable_lookup_of_mem code key hck
  have hkh : key ≠ "hints" := codeStatTable_val_ne_hints _ hck
  set base := items.foldl (applyItem sm) [] with hbase
  have hgood : GoodDict base := goodDict_foldl sm items [] ⟨List.nodup_nil, by simp⟩
  have hslot : slotInt base key =
      if codeTouched code items = true then some (codeSum code items) else none := by
    have h0 := slotInt_foldl_applyItem sm code key hlk items []
    simpa [slotInt, dictGet] using h0
  have hshape : dictGet base key =
      if codeTouched code items = true then some (EffVal.int (codeSum code items)) else none := by
    cases htouch : codeTouched code items with
    | true =>
      rw [htouch, if_pos rfl] at hslot
      cases hd : dictGet base key with
      | none => rw [slotInt, hd] at hslot; simp at hslot
      | some v =>
        cases v with
        | int n =>
          rw [slotInt, hd] at hslot
          simp only [Option.some.injEq] at hslot
          simp [hd, hslot]
        | strList l => rw [slotInt, hd] at hslot; simp at hslot
    | false =>
      rw [htouch] at hslot
      simp only [Bool.false_eq_true, if_neg, not_false_eq_true] at hslot
      cases hd : dictGet base key with
      | none => simp
      | some v =>
        cases v with
        | int n => rw [slotInt, hd] at hslot; simp at hslot
        | strList l =>
          exfalso
          have hw := (hgood.2 _ (dictGet_mem _ _ _ hd)).2
          simp [WTpairB, hkh] at hw
  unfold parse_effects_from_event_dict
  rw [← hbase, dictGet_filter _ _ _ hgood.1, hshape]
  cases htouch : codeTouched code items with
  | false =>
    have hz : codeSum code items = 0 := codeSum_eq_zero_of_not_touched code items htouch
    simp [hz]
  | true =>
    by_cases hz : codeSum code items = 0
    · simp [hz]
    · simp [hz]

theorem c3_witness :
    ((("sp", "speed") ∈ codeStatTable) ∧
      dictGet
          (parse_effects_from_event_dict
            ([⟨some "sp", PyVal.vstr "+5", none⟩, ⟨some "sp", PyVal.vint 3, none⟩,
              ⟨some "sp", PyVal.vstr "junk", none⟩, ⟨some "en", PyVal.vint 2, none⟩] : List EffItem)
            ([] : List (String × String))) "speed" =
        if codeSum "sp"
            ([⟨some "sp", PyVal.vstr "+5", none⟩, ⟨some "sp", PyVal.vint 3, none⟩,
              ⟨some "sp", PyVal.vstr "junk", none⟩, ⟨some "en", PyVal.vint 2, none⟩] : List EffItem) = 0
        then none
        else some (EffVal.int (codeSum "sp"
            ([⟨some "sp", PyVal.vstr "+5", none⟩, ⟨some "sp", PyVal.vint 3, none⟩,
              ⟨some "sp", PyVal.vstr "junk", none⟩, ⟨some "en", PyVal.vint 2, none⟩] : List EffItem)))) :=
  ⟨by decide,
    c3_parse_effects_accumulates "sp" "speed" (by decide)
      ([⟨some "sp", PyVal.vstr "+5", none⟩, ⟨some "sp", PyVal.vint 3, none⟩,
        ⟨some "sp", PyVal.vstr "junk", none⟩, ⟨some "en", PyVal.vint 2, none⟩] : List EffItem)
      ([] : List (String × String))⟩

theorem getFloat_of_WT (d : Dict) (k : String) (h : WTDict d) (hk : k ≠ "hints") :
    getFloat d k = some (slotQ d k) := by
  unfold getFloat slotQ slotInt
  cases hd : dictGet d k with
  | none => simp
  | some v =>
    cases v with
    | int n => simp
    | strList l =>
      exfalso
      have hw := h _ (dictGet_mem _ _ _ hd)
      simp [WTpairB, hk] at hw

theorem getHintCount_of_WT (d : Dict) (h : WTDict d) :
    getHintCount d = some (hintLen d) := by
  unfold getHintCount hintLen
  cases hd : dictGet d "hints" with
  | none => simp
  | some v =>
    cases v with
    | strList l => simp
    | int n =>
      exfalso
      have hw := h _ (dictGet_mem _ _ _ hd)
      simp [WTpairB] at hw

theorem score_outcome_eval (eff : Dict) (h : WTDict eff) :
    score_outcome eff = some (
      100 * slotQ eff "energy" +
      10 * (5 * slotQ eff "speed" + 4 * slotQ eff "stamina" + 3 * slotQ eff "power" +
            2 * slotQ eff "wit" + 1 * slotQ eff "guts") +
      2 * slotQ eff "skill_pts" + 1 * (hintLen eff : ℚ) +
      (3 / 10) * slotQ eff "bond" + 2 * slotQ eff "mood") := by
  have he := getFloat_of_WT eff "energy" h (by decide)
  have hsp := getFloat_of_WT eff "speed" h (by decide)
  have hst := getFloat_of_WT eff "stamina" h (by decide)
  have hpo := getFloat_of_WT eff "power" h (by decide)
  have hwi := getFloat_of_WT eff "wit" h (by decide)
  have hgu := getFloat_of_WT eff "guts" h (by decide)
  have hpt := getFloat_of_WT eff "skill_pts" h (by decide)
  have hbo := getFloat_of_WT eff "bond" h (by decide)
  have hmo := getFloat_of_WT eff "mood" h (by decide)
  have hh := getHintCount_of_WT eff h
  simp only [score_outcome, STAT_WEIGHTS, List.foldlM_cons, List.foldlM_nil,
    he, hsp, hst, hpo, hwi, hgu, hpt, hbo, hmo, hh, Option.bind_eq_bind, Option.some_bind,
    Option.pure_def, Option.some.injEq]
  simp only [W_ENERGY, W_STAT, W_SKILLPTS, W_HINT, W_BOND, W_MOOD]
  ring

theorem score_isSome_of_WT (d : Dict) (h : WTDict d) : (score_outcome d).isSome := by
  rw [score_outcome_eval d h]
  rfl

/-- C2: on every well-shaped effect map, score_outcome is exactly
100 times energy, plus 10 times the weighted stat sum with weights
speed 5, stamina 4, power 3, wit 2, guts 1, plus 2 times skill points,
plus 1 per hint, plus 3/10 times bond, plus 2 times mood; a missing key
contributes 0 and a missing hints list counts as empty. -/
theorem c2_score_formula (eff : Dict) (h : WTDict eff) :
    score_outcome eff = some (
      100 * slotQ eff "energy" +
      10 * (5 * slotQ eff "speed" + 4 * slotQ eff "stamina" + 3 * slotQ eff "power" +
            2 * slotQ eff "wit" + 1 * slotQ eff "guts") +
      2 * slotQ eff "skill_pts" + 1 * (hintLen eff : ℚ) +
      (3 / 10) * slotQ eff "bond" + 2 * slotQ eff "mood") :=
  score_outcome_eval eff h

theorem c2_witness :
    WTDict ([("energy", EffVal.int 2), ("hints", EffVal.strList ["a", "b"])] : Dict) ∧
    score_outcome ([("energy", EffVal.int 2), ("hints", EffVal.strList ["a", "b"])] : Dict) =
      some (
        100 * slotQ ([("energy", EffVal.int 2), ("hints", EffVal.strList ["a", "b"])] : Dict) "energy" +
        10 * (5 * slotQ ([("energy", EffVal.int 2), ("hints", EffVal.strList ["a", "b"])] : Dict) "speed" +
              4 * slotQ ([("energy", EffVal.int 2), ("hints", EffVal.strList ["a", "b"])] : Dict) "stamina" +
              3 * slotQ ([("energy", EffVal.int 2), ("hints", EffVal.strList ["a", "b"])] : Dict) "power" +
              2 * slotQ ([("energy", EffVal.int 2), ("hints", EffVal.strList ["a", "b"])] : Dict) "wit" +
              1 * slotQ ([("energy", EffVal.int 2), ("hints", EffVal.strList ["a", "b"])] : Dict) "guts") +
        2 * slotQ ([("energy", EffVal.int 2), ("hints", EffVal.strList ["a", "b"])] : Dict) "skill_pts" +
        1 * (hintLen ([("energy", EffVal.int 2), ("hints", EffVal.strList ["a", "b"])] : Dict) : ℚ) +
        (3 / 10) * slotQ ([("energy", EffVal.int 2), ("hints", EffVal.strList ["a", "b"])] : Dict) "bond" +
        2 * slotQ ([("energy", EffVal.int 2), ("hints", EffVal.strList ["a", "b"])] : Dict) "mood") :=
  ⟨by decide,
    c2_score_formula ([("energy", EffVal.int 2), ("hints", EffVal.strList ["a", "b"])] : Dict)
      (by decide)⟩

theorem scoresOf_eq (outs : List Dict) (h : ∀ o ∈ outs, (score_outcome o).isSome) :
    scoresOf outs = some (outs.map scD) := by
  induction outs with
  | nil => rfl
  | cons o rest ih =>
    have ho := h o (List.mem_cons_self _ _)
    obtain ⟨q, hq⟩ := Option.isSome_iff_exists.mp ho
    have hrest := ih (fun o' ho' => h o' (List.mem_cons_of_mem _ ho'))
    simp [scoresOf, hq, hrest, scD]

theorem chooseStep_eq (st : Int × WithBot ℚ) (kv : String × List Dict)
    (h : ∀ o ∈ kv.2, (score_outcome o).isSome) :
    chooseStep st kv = some (stepP st kv) := by
  unfold chooseStep stepP
  by_cases he : kv.2.isEmpty
  · simp [he]
  · rw [if_neg he, if_neg he]
    rw [scoresOf_eq kv.2 h]
    simp only [Option.bind_eq_bind, Option.some_bind, entryOf, worstCase]
    split <;> rfl

theorem chooseLoop_eq (options : List (String × List Dict))
    (H : ∀ kv ∈ options, ∀ o ∈ kv.2, (score_outcome o).isSome) :
    ∀ st, chooseLoop st options = some (options.foldl stepP st) := by
  induction options with
  | nil => intro st; rfl
  | cons kv rest ih =>
    intro st
    have h1 := chooseStep_eq st kv (H kv (List.mem_cons_self _ _))
    have h2 := ih (fun kv' h' o ho => H kv' (List.mem_cons_of_mem _ h') o ho)
    simp [chooseLoop, h1, List.foldl_cons, h2 (stepP st kv)]

theorem stepP_cases (st : Int × WithBot ℚ) (kv : String × List Dict) :
    (stepP st kv = st ∨ (kv.2 ≠ [] ∧ stepP st kv = entryOf kv)) ∧
    st.2 ≤ (stepP st kv).2 ∧
    ((stepP st kv).2 = st.2 → (stepP st kv).1 ≤ st.1) ∧
    (kv.2 ≠ [] → (entryOf kv).2 ≤ (stepP st kv).2) ∧
    (kv.2 ≠ [] → (entryOf kv).2 = (stepP st kv).2 → (stepP st kv).1 ≤ (entryOf kv).1) := by
  unfold stepP
  by_cases he : kv.2.isEmpty
  · have hnil : kv.2 = [] := by simpa using he
    rw [if_pos he]
    exact ⟨Or.inl rfl, le_refl _, fun _ => le_refl _,
      fun hne => absurd hnil hne, fun hne => absurd hnil hne⟩
  · have hne : kv.2 ≠ [] := by simpa using he
    rw [if_neg he]
    by_cases hcond : ((entryOf kv).2 > st.2 ∨ ((entryOf kv).2 = st.2 ∧ (entryOf kv).1 < st.1))
    · rw [if_pos hcond]
      refine ⟨Or.inr ⟨hne, rfl⟩, ?_, ?_, fun _ => le_refl _, fun _ _ => le_refl _⟩
      · rcases hcond with h | ⟨h, _⟩
        · exact le_of_lt h
        · exact le_of_eq h.symm
      · intro heq
        rcases hcond with h | ⟨_, h⟩
        · exact absurd heq (ne_of_gt h)
        · exact le_of_lt h
    · rw [if_neg hcond]
      push_neg at hcond
      exact ⟨Or.inl rfl, le_refl _, fun _ => le_refl _,
        fun _ => hcond.1, fun _ heq => hcond.2 heq⟩

theorem stepP_foldl_spec (options : List (String × List Dict)) :
    ∀ st : Int × WithBot ℚ,
      (options.foldl stepP st = st ∨
        ∃ kv, kv ∈ options ∧ kv.2 ≠ [] ∧ options.foldl stepP st = entryOf kv) ∧
      st.2 ≤ (options.foldl stepP st).2 ∧
      (∀ kv ∈ options, kv.2 ≠ [] → (entryOf kv).2 ≤ (options.foldl stepP st).2) ∧
      ((options.foldl stepP st).2 = st.2 → (options.foldl stepP st).1 ≤ st.1) ∧
      (∀ kv ∈ options, kv.2 ≠ [] → (entryOf kv).2 = (options.foldl stepP st).2 →
        (options.foldl stepP st).1 ≤ (entryOf kv).1) := by
  induction options with
  | nil =>
    intro st
    exact ⟨Or.inl rfl, le_refl _, by simp, fun _ => le_refl _, by simp⟩
  | cons kv rest ih =>
    intro st
    obtain ⟨hA, hB, hC, hD, hE⟩ := stepP_cases st kv
    obtain ⟨iA, iB, iC, iD, iE⟩ := ih (stepP st kv)
    rw [List.foldl_cons]
    refine ⟨?_, hB.trans iB, ?_, ?_, ?_⟩
    · rcases iA with h | ⟨kv', hmem, hne', heq⟩
      · rcases hA with h' | ⟨hne', h'⟩
        · exact Or.inl (by rw [h, h'])
        · exact Or.inr ⟨kv, List.mem_cons_self _ _, hne', by rw [h, h']⟩
      · exact Or.inr ⟨kv', List.mem_cons_of_mem _ hmem, hne', heq⟩
    · intro kv' hmem hne'
      rcases List.mem_cons.mp hmem with rfl | hmem'
      · exact (hD hne').trans iB
      · exact iC kv' hmem' hne'
    · intro heq
      have h2 : (stepP st kv).2 ≤ st.2 := heq ▸ iB
      have h1 : (stepP st kv).2 = st.2 := le_antisymm h2 hB
      have h3 : (rest.foldl stepP (stepP st kv)).2 = (stepP st kv).2 := by rw [heq, h1]
      exact (iD h3).trans (hC h1)
    · intro kv' hmem hne' heq
      rcases List.mem_cons.mp hmem with rfl | hmem'
      · have h1 : (entryOf kv').2 ≤ (stepP st kv').2 := hD hne'
        have h3 : (stepP st kv').2 = (rest.foldl stepP (stepP st kv')).2 :=
          le_antisymm iB (by rw [← heq]; exact h1)
        have h4 : (rest.foldl stepP (stepP st kv')).1 ≤ (stepP st kv').1 := iD h3.symm
        have h5 : (stepP st kv').1 ≤ (entryOf kv').1 := hE hne' (by rw [heq, ← h3])
        exact h4.trans h5
      · exact iE kv' hmem' hne' heq

theorem choose_spec (options : List (String × List Dict))
    (H : ∀ kv ∈ options, ∀ o ∈ kv.2, (score_outcome o).isSome)
    (hne : ∃ kv ∈ options, kv.2 ≠ []) :
    ∃ kv, kv ∈ options ∧ kv.2 ≠ [] ∧
      choose_default_preference options = some (numKey kv.1) ∧
      (∀ kv' ∈ options, kv'.2 ≠ [] → worstCase kv'.2 ≤ worstCase kv.2) ∧
      (∀ kv' ∈ options, kv'.2 ≠ [] → worstCase kv'.2 = worstCase kv.2 →
        numKey kv.1 ≤ numKey kv'.1) := by
  obtain ⟨A, B, C, D, E⟩ := stepP_foldl_spec options (1, (⊥ : WithBot ℚ))
  have hchoose : choose_default_preference options =
      some (options.foldl stepP (1, (⊥ : WithBot ℚ))).1 := by
    unfold choose_default_preference
    rw [chooseLoop_eq options H (1, (⊥ : WithBot ℚ))]
    rfl
  rcases A with hA | ⟨kv, hmem, hkvne, heq⟩
  · exfalso
    obtain ⟨kv, hmem, hkvne⟩ := hne
    have hle := C kv hmem hkvne
    rw [hA] at hle
    simp only [entryOf] at hle
    exact (WithBot.not_coe_le_bot _) hle
  · refine ⟨kv, hmem, hkvne, ?_, ?_, ?_⟩
    · rw [hchoose, heq]
      rfl
    · intro kv' hmem' hne'
      have hle := C kv' hmem' hne'
      rw [heq] at hle
      simpa [entryOf, WithBot.coe_le_coe] using hle
    · intro kv' hmem' hne' heq'
      have h0 : (entryOf kv').2 = (options.foldl stepP (1, (⊥ : WithBot ℚ))).2 := by
        rw [heq]
        simp [entryOf, heq']
      have := E kv' hmem' hne' h0
      rw [heq] at this
      simpa [entryOf] using this

/-- C1: over an options dict whose keys are decimal-digit strings and
whose outcome maps are well shaped, choose_default_preference selects a
viable option (one with at least one outcome) whose worst-case score
(minimum outcome score) is maximal and whose numeric key is least among
the viable options attaining that maximum, and returns that numeric key;
options with an empty outcome list play no role. -/
theorem c1_choose_default_preference (options : List (String × List Dict))
    (hwt : ∀ kv ∈ options, ∀ o ∈ kv.2, WTDict o)
    (hkeys : ∀ kv ∈ options, pyIsDigitStr kv.1 = true)
    (hne : ∃ kv ∈ options, kv.2 ≠ []) :
    ∃ kv, kv ∈ options ∧ kv.2 ≠ [] ∧
      choose_default_preference options = some (numKey kv.1) ∧
      (∀ kv' ∈ options, kv'.2 ≠ [] → worstCase kv'.2 ≤ worstCase kv.2) ∧
      (∀ kv' ∈ options, kv'.2 ≠ [] → worstCase kv'.2 = worstCase kv.2 →
        numKey kv.1 ≤ numKey kv'.1) :=
  choose_spec options (fun kv hm o ho => score_isSome_of_WT o (hwt kv hm o ho)) hne

theorem c1_witness :
    (∃ kv ∈ ([("1", [[("energy", EffVal.int 1)]]), ("2", [[("energy", EffVal.int 2)]])] :
        List (String × List Dict)), kv.2 ≠ []) ∧
    (∃ kv, kv ∈ ([("1", [[("energy", EffVal.int 1)]]), ("2", [[("energy", EffVal.int 2)]])] :
        List (String × List Dict)) ∧ kv.2 ≠ [] ∧
      choose_default_preference
          ([("1", [[("energy", EffVal.int 1)]]), ("2", [[("energy", EffVal.int 2)]])] :
            List (String × List Dict)) = some (numKey kv.1) ∧
      (∀ kv' ∈ ([("1", [[("energy", EffVal.int 1)]]), ("2", [[("energy", EffVal.int 2)]])] :
          List (String × List Dict)), kv'.2 ≠ [] → worstCase kv'.2 ≤ worstCase kv.2) ∧
      (∀ kv' ∈ ([("1", [[("energy", EffVal.int 1)]]), ("2", [[("energy", EffVal.int 2)]])] :
          List (String × List Dict)), kv'.2 ≠ [] → worstCase kv'.2 = worstCase kv.2 →
        numKey kv.1 ≤ numKey kv'.1)) :=
  ⟨by decide,
    c1_choose_default_preference
      ([("1", [[("energy", EffVal.int 1)]]), ("2", [[("energy", EffVal.int 2)]])] :
        List (String × List Dict)) (by decide) (by decide) (by decide)⟩

theorem chooseLoop_all_empty (options : List (String × List Dict))
    (h : ∀ kv ∈ options, kv.2 = []) :
    ∀ st, chooseLoop st options = some st := by
  induction options with
  | nil => intro st; rfl
  | cons kv rest ih =>
    intro st
    have hkv : kv.2 = [] := h kv (List.mem_cons_self _ _)
    simp [chooseLoop, chooseStep, hkv, ih (fun kv' h' => h kv' (List.mem_cons_of_mem _ h'))]

/-- C7: when every option has an empty outcome list (in particular when
the options dict is empty), choose_default_preference returns the
initial value 1, whether or not a key 1 was ever present. -/
theorem c7_default_on_no_outcomes (options : List (String × List Dict))
    (h : ∀ kv ∈ options, kv.2 = []) :
    choose_default_preference options = some 1 := by
  unfold choose_default_preference
  rw [chooseLoop_all_empty options h]
  rfl

theorem c7_witness :
    (∀ kv ∈ ([("2", []), ("3", [])] : List (String × List Dict)), kv.2 = []) ∧
    choose_default_preference ([("2", []), ("3", [])] : List (String × List Dict)) = some 1 :=
  ⟨by decide,
    c7_default_on_no_outcomes ([("2", []), ("3", [])] : List (String × List Dict)) (by decide)⟩

/-- C10: an option whose key is not a decimal-digit string is read as
numeric key 1; when such an option strictly dominates every other viable
option in worst-case score, the function returns 1, not the actual key. -/
theorem c10_nondigit_key (options : List (String × List Dict)) (k0 : String) (outs0 : List Dict)
    (hwt : ∀ kv ∈ options, ∀ o ∈ kv.2, WTDict o)
    (hmem : (k0, outs0) ∈ options)
    (hk0 : pyIsDigitStr k0 = false)
    (hone : outs0 ≠ [])
    (hdom : ∀ kv ∈ options, kv ≠ (k0, outs0) → kv.2 ≠ [] → worstCase kv.2 < worstCase outs0) :
    choose_default_preference options = some 1 := by
  obtain ⟨kv, hkvmem, hkvne, hch, hmax, _⟩ :=
    choose_spec options (fun kv hm o ho => score_isSome_of_WT o (hwt kv hm o ho))
      ⟨(k0, outs0), hmem, hone⟩
  by_cases hkv : kv = (k0, outs0)
  · rw [hch, hkv]
    simp [numKey, hk0]
  · exfalso
    have h1 := hdom kv hkvmem hkv hkvne
    have h2 := hmax (k0, outs0) hmem hone
    exact absurd h2 (not_le.mpr h1)

theorem c10_witness :
    pyIsDigitStr "x" = false ∧
    choose_default_preference
        ([("x", [[("energy", EffVal.int 2)]]), ("1", [[("energy", EffVal.int 1)]])] :
          List (String × List Dict)) = some 1 :=
  ⟨by decide,
    c10_nondigit_key
      ([("x", [[("energy", EffVal.int 2)]]), ("1", [[("energy", EffVal.int 1)]])] :
        List (String × List Dict)) "x" [[("energy", EffVal.int 2)]]
      (by decide) (by decide) (by decide) (by decide)
      (by
        intro kv hkv hne1 hne2
        have hkv1 : kv = ("1", [[("energy", EffVal.int 1)]]) := by
          rcases List.mem_cons.mp hkv with h | h
          · exact absurd h hne1
          · simpa using h
        subst hkv1
        norm_num +decide [worstCase, scD, listMin, score_outcome, scoresOf, STAT_WEIGHTS,
          getFloat, getHintCount, dictGet, W_ENERGY, W_STAT, W_SKILLPTS, W_HINT, W_BOND, W_MOOD])⟩

theorem mkOptionsFrom_isEmpty (sm : List (String × String)) (i : Nat) (c : List (List EffItem)) :
    (mkOptionsFrom sm i c).isEmpty = c.isEmpty := by
  cases c <;> rfl

theorem mkOptionsFrom_ne_nil (sm : List (String × String)) (i : Nat) (c : List (List EffItem))
    (h : c ≠ []) : mkOptionsFrom sm i c ≠ [] := by
  cases c with
  | nil => exact absurd rfl h
  | cons ch rest => simp [mkOptionsFrom]

theorem mkOptionsFrom_mem (sm : List (String × String)) (c : List (List EffItem))
    (kv : String × List Dict) :
    ∀ i, kv ∈ mkOptionsFrom sm i c →
      ∃ choice ∈ c, kv.2 = [parse_effects_from_event_dict choice sm] := by
  induction c with
  | nil => intro i h; simp [mkOptionsFrom] at h
  | cons ch rest ih =>
    intro i h
    rcases List.mem_cons.mp h with h1 | h2
    · exact ⟨ch, List.mem_cons_self _ _, by rw [h1]⟩
    · obtain ⟨choice, hmem, heq⟩ := ih (i + 1) h2
      exact ⟨choice, List.mem_cons_of_mem _ hmem, heq⟩

theorem mkOptions_scores (sm : List (String × String)) (i : Nat) (c : List (List EffItem)) :
    ∀ kv ∈ mkOptionsFrom sm i c, ∀ o ∈ kv.2, (score_outcome o).isSome := by
  intro kv hkv o ho
  obtain ⟨choice, _, h2⟩ := mkOptionsFrom_mem sm c kv i hkv
  rw [h2] at ho
  have : o = parse_effects_from_event_dict choice sm := by simpa using ho
  rw [this]
  exact score_isSome_of_WT _ (wtDict_parse_effects choice sm)

theorem choose_mkOptions_isSome (sm : List (String × String)) (c : List (List EffItem)) :
    ∃ n, choose_default_preference (mkOptionsFrom sm 1 c) = some n := by
  unfold choose_default_preference
  rw [chooseLoop_eq _ (mkOptions_scores sm 1 c) (1, (⊥ : WithBot ℚ))]
  exact ⟨_, rfl⟩

theorem processRandom_eq (sm : List (String × String)) (re : RawEvent) :
    processRandom sm re = some (if re.c.isEmpty then [] else [mkRandomEvent sm re]) := by
  unfold processRandom
  by_cases he : (mkOptionsFrom sm 1 re.c).isEmpty
  · have hc : re.c.isEmpty = true := by rw [← mkOptionsFrom_isEmpty sm 1 re.c]; exact he
    rw [if_pos he, hc]
    rfl
  · obtain ⟨n, hn⟩ := choose_mkOptions_isSome sm re.c
    have hc : re.c.isEmpty = false := by
      rw [← mkOptionsFrom_isEmpty sm 1 re.c]
      exact Bool.not_eq_true _ ▸ (by simpa using he)
    rw [if_neg he, hc]
    simp [hn, mkRandomEvent, dpOf]

theorem processChain_eq (sm : List (String × String)) (step : Int) (ce : RawEvent) :
    processChain sm step ce = some (if ce.c.isEmpty then [] else [mkChainEvent sm step ce]) := by
  unfold processChain
  by_cases he : (mkOptionsFrom sm 1 ce.c).isEmpty
  · have hc : ce.c.isEmpty = true := by rw [← mkOptionsFrom_isEmpty sm 1 ce.c]; exact he
    rw [if_pos he, hc]
    rfl
  · obtain ⟨n, hn⟩ := choose_mkOptions_isSome sm ce.c
    have hc : ce.c.isEmpty = false := by
      rw [← mkOptionsFrom_isEmpty sm 1 ce.c]
      exact Bool.not_eq_true _ ▸ (by simpa using he)
    rw [if_neg he, hc]
    simp [hn, mkChainEvent, dpOf]

theorem processRandoms_eq (sm : List (String × String)) (res : List RawEvent) :
    processRandoms sm res =
      some ((res.filter (fun re => !re.c.isEmpty)).map (mkRandomEvent sm)) := by
  induction res with
  | nil => rfl
  | cons re rest ih =>
    by_cases hc : re.c.isEmpty <;>
      simp [processRandoms, processRandom_eq, ih, List.filter_cons, hc]

theorem processChains_eq (sm : List (String × String)) (arrows : List RawEvent) :
    ∀ step, processChains sm step arrows = some (chainList sm step arrows) := by
  induction arrows with
  | nil => intro step; rfl
  | cons ce rest ih =>
    intro step
    simp [processChains, processChain_eq, ih (step + 1), chainList]

theorem parse_events_eq (sm : List (String × String)) (rands arrows : List RawEvent) :
    parse_events_from_json_data sm rands arrows =
      some (((rands.filter (fun re => !re.c.isEmpty)).map (mkRandomEvent sm)) ++
        chainList sm 1 arrows) := by
  unfold parse_events_from_json_data
  rw [processRandoms_eq, processChains_eq]
  rfl

theorem chainList_length (sm : List (String × String)) (arrows : List RawEvent) :
    ∀ step, (chainList sm step arrows).length =
      (arrows.filter (fun re => !re.c.isEmpty)).length := by
  induction arrows with
  | nil => intro step; rfl
  | cons ce rest ih =>
    intro step
    by_cases hc : ce.c.isEmpty <;>
      simp [chainList, List.filter_cons, hc, ih (step + 1)]

theorem chainList_mem (sm : List (String × String)) (arrows : List RawEvent) :
    ∀ step ev, ev ∈ chainList sm step arrows → ev.type = "chain" ∧ ev.options ≠ [] := by
  induction arrows with
  | nil => intro step ev h; simp [chainList] at h
  | cons ce rest ih =>
    intro step ev h
    rcases List.mem_append.mp h with h1 | h2
    · by_cases hc : ce.c.isEmpty
      · rw [if_pos hc] at h1
        simp at h1
      · rw [if_neg hc] at h1
        have hev : ev = mkChainEvent sm step ce := by simpa using h1
        subst hev
        refine ⟨rfl, ?_⟩
        show mkOptionsFrom sm 1 ce.c ≠ []
        exact mkOptionsFrom_ne_nil sm 1 ce.c (by simpa using hc)
    · exact ih (step + 1) ev h2

theorem chainList_steps (sm : List (String × String)) (arrows : List RawEvent) :
    ∀ step : Int, (chainList sm step arrows).map Event.chain_step =
      (viablePositions arrows).map (fun i : Nat => step + (i : Int)) := by
  induction arrows with
  | nil => intro step; rfl
  | cons ce rest ih =>
    intro step
    have hfun : ((fun i : Nat => step + (i : Int)) ∘ (fun i : Nat => i + 1)) =
        fun i : Nat => (step + 1) + (i : Int) := by
      funext i
      simp only [Function.comp]
      push_cast
      ring
    by_cases hc : ce.c.isEmpty
    · simp only [chainList, viablePositions, hc, if_pos, List.nil_append,
        List.map_append, List.map_map, hfun]
      exact ih (step + 1)
    · simp only [chainList, viablePositions, if_neg hc, List.map_append, List.map_cons,
        List.map_nil, List.map_map, hfun, ih (step + 1)]
      simp [mkChainEvent]

theorem viablePositions_iff (arrows : List RawEvent) :
    ∀ i : Nat, i ∈ viablePositions arrows ↔
      (i < arrows.length ∧ (arrows.getD i ⟨none, []⟩).c ≠ []) := by
  induction arrows with
  | nil => intro i; simp [viablePositions]
  | cons ce rest ih =>
    intro i
    cases i with
    | zero =>
      by_cases hc : ce.c.isEmpty
      · have hnil : ce.c = [] := by simpa using hc
        simp [viablePositions, hc, hnil]
      · have hne : ce.c ≠ [] := by simpa using hc
        simp [viablePositions, hc, hne]
    | succ j =>
      by_cases hc : ce.c.isEmpty <;>
        simp [viablePositions, hc, ih j, Nat.succ_lt_succ_iff, List.getD_cons_succ]

/-- C5: parse_events_from_json_data never fails after JSON decoding, every
emitted event has a non-empty options dict, and exactly the events with
at least one choice (hence a non-empty options dict) are emitted; events
with no choices are dropped silently. -/
theorem c5_event_emission (sm : List (String × String)) (rands arrows : List RawEvent) :
    ∃ evs, parse_events_from_json_data sm rands arrows = some evs ∧
      (∀ ev ∈ evs, ev.options ≠ []) ∧
      evs.length = (rands.filter (fun re => !re.c.isEmpty)).length +
        (arrows.filter (fun re => !re.c.isEmpty)).length := by
  refine ⟨_, parse_events_eq sm rands arrows, ?_, ?_⟩
  · intro ev hev
    rcases List.mem_append.mp hev with h | h
    · obtain ⟨re, hre, hevq⟩ := List.mem_map.mp h
      subst hevq
      show mkOptionsFrom sm 1 re.c ≠ []
      exact mkOptionsFrom_ne_nil sm 1 re.c (by simpa using List.of_mem_filter hre)
    · exact (chainList_mem sm arrows 1 ev h).2
  · rw [List.length_append, List.length_map, chainList_length]

/-- C6: every emitted random event has chain_step 1, and the chain_step
values of the emitted chain events are exactly the 1-based positions of
the arrows entries that have at least one choice - the counter advances
once per chain event encountered, dropped events included. -/
theorem c6_chain_steps (sm : List (String × String)) (rands arrows : List RawEvent) :
    ∃ evs, parse_events_from_json_data sm rands arrows = some evs ∧
      (∀ ev ∈ evs, ev.type = "random" → ev.chain_step = 1) ∧
      ((evs.filter (fun ev => ev.type == "chain")).map Event.chain_step =
        (viablePositions arrows).map (fun i : Nat => (i : Int) + 1)) ∧
      (∀ i : Nat, i ∈ viablePositions arrows ↔
        (i < arrows.length ∧ (arrows.getD i ⟨none, []⟩).c ≠ [])) := by
  refine ⟨_, parse_events_eq sm rands arrows, ?_, ?_, fun i => viablePositions_iff arrows i⟩
  · intro ev hev
    rcases List.mem_append.mp hev with h | h
    · obtain ⟨re, hre, hevq⟩ := List.mem_map.mp h
      subst hevq
      intro _
      rfl
    · intro htype
      have hch := (chainList_mem sm arrows 1 ev h).1
      rw [htype] at hch
      exact absurd hch (by decide)
  · rw [List.filter_append]
    have h1 : ((rands.filter (fun re => !re.c.isEmpty)).map (mkRandomEvent sm)).filter
        (fun ev => ev.type == "chain") = [] := by
      rw [List.filter_eq_nil_iff]
      intro ev hev
      obtain ⟨re, _, hevq⟩ := List.mem_map.mp hev
      subst hevq
      simp +decide [mkRandomEvent]
    have h2 : (chainList sm 1 arrows).filter (fun ev => ev.type == "chain") =
        chainList sm 1 arrows := by
      rw [List.filter_eq_self]
      intro ev hev
      simp [(chainList_mem sm arrows 1 ev hev).1]
    rw [h1, h2, List.nil_append, chainList_steps]
    have hfun : (fun i : Nat => (1 : Int) + (i : Int)) = fun i : Nat => (i : Int) + 1 := by
      funext i
      ring
    rw [hfun]

theorem skillKeep_iff (s : RawSkill) :
    skillKeep s = true ↔
      (s.id.isSome = true ∧ pyFalsyStr s.name_en = false ∧
        pyFalsyStr s.desc_en = false ∧ s.iconid.isSome = true) := by
  unfold skillKeep
  cases hid : s.id <;> cases hicon : s.iconid <;>
    cases hn : pyFalsyStr s.name_en <;> cases hd : pyFalsyStr s.desc_en <;> simp

/-- C9 counterexample: a raw skill record that has both an id and a
non-empty English name is nevertheless excluded by the filter of the
skill fetcher when its desc_en field is missing. -/
theorem c9_counterexample :
    ((⟨some 1, some "A", none, some 1⟩ : RawSkill).id = some 1 ∧
      (⟨some 1, some "A", none, some 1⟩ : RawSkill).name_en = some "A") ∧
    filtered_skills [(⟨some 1, some "A", none, some 1⟩ : RawSkill)] = [] := by
  decide

/-- C9 (amended): the filter of the skill fetcher keeps exactly the raw
records that have a present id, a truthy (non-empty) name_en, a truthy
desc_en and a present iconid; a record missing any of the four is
excluded even when it has both an id and an English name. -/
theorem c9_skill_filter (raw : List RawSkill) (s : RawSkill) :
    s ∈ filtered_skills raw ↔
      (s ∈ raw ∧ s.id.isSome = true ∧ pyFalsyStr s.name_en = false ∧
        pyFalsyStr s.desc_en = false ∧ s.iconid.isSome = true) := by
  unfold filtered_skills
  rw [List.mem_filter, skillKeep_iff]

theorem c9_witness :
    (⟨some 1, some "A", some "d", some 2⟩ : RawSkill) ∈
        filtered_skills [(⟨some 1, some "A", some "d", some 2⟩ : RawSkill)] ↔
      ((⟨some 1, some "A", some "d", some 2⟩ : RawSkill) ∈
          [(⟨some 1, some "A", some "d", some 2⟩ : RawSkill)] ∧
        (⟨some 1, some "A", some "d", some 2⟩ : RawSkill).id.isSome = true ∧
        pyFalsyStr (⟨some 1, some "A", some "d", some 2⟩ : RawSkill).name_en = false ∧
        pyFalsyStr (⟨some 1, some "A", some "d", some 2⟩ : RawSkill).desc_en = false ∧
        (⟨some 1, some "A", some "d", some 2⟩ : RawSkill).iconid.isSome = true) :=
  c9_skill_filter [(⟨some 1, some "A", some "d", some 2⟩ : RawSkill)]
    (⟨some 1, some "A", some "d", some 2⟩ : RawSkill)

end Umaplay
